import Mathlib

/-!
Verification development for the hexagonal chess engine
(`src/hex_board.py`, `src/game.py`, `src/evaluation.py`, `src/engine.py`,
`src/constants.py`).

The board, the move generator, the check-aware validator, the evaluator and
the alpha-beta search engine are shallowly embedded as pure Lean functions.
Mutation followed by exact restoration (the engine's snapshot/restore pair,
`simulate_move`'s apply/revert) is embedded as explicit state passing.

Search values in the Python code are either exact machine integers
(the evaluator only performs integer arithmetic) or the two IEEE-754
infinities `float('-inf')` / `float('inf')` used as sentinels and mate
scores.  They are embedded as the type `Score` below: an integer, `ninf`
or `pinf`, with IEEE-faithful arithmetic (adding a finite number to an
infinity leaves the infinity unchanged).
-/

/-- A piece side, `'white'`/`'black'` in the source. -/
inductive Side where
  | white : Side
  | black : Side
deriving DecidableEq

/-- Embedding of `"black" if current_turn == "white" else "white"`. -/
def flipSide : Side → Side
  | Side.white => Side.black
  | Side.black => Side.white

/-- A piece kind, the `piece_name` strings of the source. -/
inductive PieceKind where
  | pawn : PieceKind
  | knight : PieceKind
  | bishop : PieceKind
  | rook : PieceKind
  | queen : PieceKind
  | king : PieceKind
deriving DecidableEq

/-- A piece is the `(color, piece_name)` tuple stored in `HexTile.piece`. -/
abbrev Piece := Side × PieceKind

/-- The value space of the search: Python integers together with the two
IEEE-754 infinities `float('-inf')` and `float('inf')`. -/
inductive Score where
  | ninf : Score
  | fin : ℤ → Score
  | pinf : Score
deriving DecidableEq

/-- The Python `<=` comparison on search values. -/
def Score.leB : Score → Score → Bool
  | Score.ninf, _ => true
  | _, Score.pinf => true
  | Score.fin a, Score.fin b => decide (a ≤ b)
  | Score.pinf, _ => false
  | Score.fin _, Score.ninf => false

instance : LinearOrder Score where
  le a b := Score.leB a b = true
  le_refl a := by cases a <;> simp [Score.leB]
  le_trans a b c hab hbc := by
    cases a <;> cases b <;> cases c <;> simp_all [Score.leB] <;> omega
  le_antisymm a b h1 h2 := by
    cases a <;> cases b <;> simp_all [Score.leB] <;> omega
  le_total a b := by cases a <;> cases b <;> simp [Score.leB] <;> omega
  decidableLE a b := inferInstanceAs (Decidable (Score.leB a b = true))

instance (a b : Score) : Decidable (a ≤ b) :=
  inferInstanceAs (Decidable (Score.leB a b = true))

/-- IEEE-754 addition of a finite integer to a search value:
`float('-inf') + d == float('-inf')` and `float('inf') + d == float('inf')`
for every finite `d` (used by `engine.py` line 125). -/
def Score.fadd : Score → ℤ → Score
  | Score.ninf, _ => Score.ninf
  | Score.pinf, _ => Score.pinf
  | Score.fin z, d => Score.fin (z + d)

/-- IEEE-754 subtraction of a finite integer from a search value:
`float('inf') - d == float('inf')` for every finite `d`. -/
def Score.fsub : Score → ℤ → Score
  | Score.ninf, _ => Score.ninf
  | Score.pinf, _ => Score.pinf
  | Score.fin z, d => Score.fin (z - d)

/-- Embedding of `PIECE_VALUES` from `constants.py` (centipawns). -/
def PIECE_VALUES : PieceKind → ℤ
  | PieceKind.pawn => 100
  | PieceKind.knight => 320
  | PieceKind.bishop => 330
  | PieceKind.rook => 500
  | PieceKind.queen => 900
  | PieceKind.king => 20000

/-- Embedding of `MAX_PHASE` from `constants.py`. -/
def MAX_PHASE : ℤ := 26

/-- Embedding of `PHASE_VALUES` from `constants.py`. -/
def PHASE_VALUES : PieceKind → ℤ
  | PieceKind.knight => 1
  | PieceKind.bishop => 1
  | PieceKind.rook => 2
  | PieceKind.queen => 4
  | PieceKind.pawn => 0
  | PieceKind.king => 0

/-- Embedding of `BOARD_SIZE` from `constants.py`. -/
def BOARD_SIZE : ℕ := 6

/-- The list of axial coordinates generated by `HexBoard._generate_tiles`,
in insertion order of the `tiles` dict: `q` runs from `-size+1` to `size-1`
and for each `q`, `r` runs from `max(-size+1, -q-size+1)` to
`min(size-1, -q+size-1)`. -/
def allCoords (size : ℕ) : List (ℤ × ℤ) :=
  (List.range (2 * size - 1)).flatMap (fun i =>
    let q : ℤ := (i : ℤ) - ((size : ℤ) - 1)
    let r1 : ℤ := max (-(size : ℤ) + 1) (-q - (size : ℤ) + 1)
    let r2 : ℤ := min ((size : ℤ) - 1) (-q + (size : ℤ) - 1)
    (List.range (r2 - r1 + 1).toNat).map (fun j => (q, r1 + (j : ℤ))))

/-- The board state of `HexBoard` (`src/hex_board.py`): the tile set is
fixed by `size`, tile occupants are the function `occ` (read through
`pieceAt`, which mirrors `get_tile`'s membership guard), plus the mutable
fields snapshotted by the engine (`current_turn`, `en_passant_target`,
`pending_promotion`, `captured_pieces`) and the display flag `flipped`
read via `getattr(board, "flipped", False)`. -/
structure Board where
  size : ℕ
  occ : ℤ × ℤ → Option Piece
  currentTurn : Side
  enPassantTarget : Option (ℤ × ℤ)
  pendingPromotion : Option (ℤ × ℤ × Side)
  capturedWhite : List PieceKind
  capturedBlack : List PieceKind
  flipped : Bool

attribute [ext] Board

/-- Embedding of `(q, r) in self.tiles` — tile membership. -/
def Board.hasTile (b : Board) (p : ℤ × ℤ) : Prop := p ∈ allCoords b.size

instance (b : Board) (p : ℤ × ℤ) : Decidable (b.hasTile p) :=
  inferInstanceAs (Decidable (p ∈ allCoords b.size))

/-- Embedding of `get_tile(q, r)` followed by reading `tile.piece`: `none` when the
coordinate is off-board or the tile is empty. -/
def pieceAt (b : Board) (p : ℤ × ℤ) : Option Piece :=
  if b.hasTile p then b.occ p else none

/-- Point update of the occupant function (`tile.piece = ...`). -/
def setOcc (occ : ℤ × ℤ → Option Piece) (p : ℤ × ℤ) (v : Option Piece) :
    ℤ × ℤ → Option Piece :=
  fun p' => if p' = p then v else occ p'

/-- The tile colour class `(q - r) mod 3` assigned by `_get_hex_color`;
the three colours `GREY`, `WHITE`, `BLACK` are distinct, so colour
equality in the source is equality of this class. -/
def colorClass (p : ℤ × ℤ) : ℤ := (p.1 - p.2) % 3

/-- Embedding of `HexBoard.move_piece` (`src/hex_board.py` lines 113-133): fails
(returns `False`, no mutation) if source or destination has no tile, the
source is empty, source equals destination, or the mover's side is not
the side to move; otherwise transfers the piece and toggles the turn. -/
def movePiece (b : Board) (f t : ℤ × ℤ) : Bool × Board :=
  if ¬ b.hasTile f ∨ ¬ b.hasTile t then (false, b)
  else
    match pieceAt b f with
    | none => (false, b)
    | some pc =>
      if f = t then (false, b)
      else if pc.1 ≠ b.currentTurn then (false, b)
      else
        (true,
          { b with
            occ := setOcc (setOcc b.occ t (some pc)) f none
            currentTurn := flipSide b.currentTurn })

/-- Embedding of `place_piece`: unconditional occupant set on an existing tile. -/
def placePiece (b : Board) (p : ℤ × ℤ) (side : Side) (kind : PieceKind) :
    Bool × Board :=
  if b.hasTile p then (true, { b with occ := setOcc b.occ p (some (side, kind)) })
  else (false, b)

/-- The exact white pawn starting squares from `_get_pawn_moves`. -/
def whitePawnStarts : List (ℤ × ℤ) :=
  [(-4, 5), (-3, 4), (-2, 3), (-1, 2), (0, 1), (1, 1), (2, 1), (3, 1), (4, 1)]

/-- The exact black pawn starting squares from `_get_pawn_moves`. -/
def blackPawnStarts : List (ℤ × ℤ) :=
  [(4, -5), (3, -4), (2, -3), (1, -2), (0, -1), (-1, -1), (-2, -1), (-3, -1), (-4, -1)]

/-- Embedding of `MoveGenerator._get_pawn_moves` (`src/game.py` lines 41-80, duplicated
verbatim in `src/hex_board.py`): single forward step onto an empty tile, a
second step only from the exact starting squares with the first step
empty, and two oblique-forward captures onto enemy-occupied tiles. -/
def pawnMoves (b : Board) (q r : ℤ) (color : Side) : List (ℤ × ℤ) :=
  let forwardDir : ℤ × ℤ := if color = Side.white then (0, -1) else (0, 1)
  let isStart : Bool :=
    if color = Side.white then decide ((q, r) ∈ whitePawnStarts)
    else decide ((q, r) ∈ blackPawnStarts)
  let captureDirs : List (ℤ × ℤ) :=
    if color = Side.white then [(-1, 0), (1, -1)] else [(1, 0), (-1, 1)]
  let n1 : ℤ × ℤ := (q + forwardDir.1, r + forwardDir.2)
  let fwd : List (ℤ × ℤ) :=
    if b.hasTile n1 ∧ pieceAt b n1 = none then
      let n2 : ℤ × ℤ := (q + forwardDir.1 * 2, r + forwardDir.2 * 2)
      if isStart ∧ b.hasTile n2 ∧ pieceAt b n2 = none then [n1, n2] else [n1]
    else []
  let caps : List (ℤ × ℤ) :=
    captureDirs.flatMap (fun d =>
      let n : ℤ × ℤ := (q + d.1, r + d.2)
      match pieceAt b n with
      | some (ec, _) => if ec ≠ color then [n] else []
      | none => [])
  fwd ++ caps

/-- The six orthogonal (unit) axial directions. -/
def orthogonalDirs : List (ℤ × ℤ) :=
  [(1, 0), (-1, 0), (0, 1), (0, -1), (1, -1), (-1, 1)]

/-- The six colour-preserving diagonal directions. -/
def diagonalDirs : List (ℤ × ℤ) :=
  [(1, 1), (-1, -1), (2, -1), (-2, 1), (1, -2), (-1, 2)]

/-- The per-direction perpendicular pairs of `_get_knight_moves`. -/
def knightPerp : ℤ × ℤ → List (ℤ × ℤ)
  | (1, 0) => [(0, 1), (1, -1)]
  | (-1, 0) => [(0, -1), (-1, 1)]
  | (0, 1) => [(-1, 1), (1, 0)]
  | (0, -1) => [(1, -1), (-1, 0)]
  | (1, -1) => [(1, 0), (0, -1)]
  | _ => [(-1, 0), (0, 1)]

/-- Landing-square filter shared by the leaper generators: empty tiles and
enemy-occupied tiles are kept. -/
def landOk (b : Board) (color : Side) (n : ℤ × ℤ) : List (ℤ × ℤ) :=
  if b.hasTile n then
    match pieceAt b n with
    | none => [n]
    | some (ec, _) => if ec ≠ color then [n] else []
  else []

/-- Embedding of `MoveGenerator._get_knight_moves`: two steps along each unit direction
then one step along each of the two adjacent directions. -/
def knightMoves (b : Board) (q r : ℤ) (color : Side) : List (ℤ × ℤ) :=
  orthogonalDirs.flatMap (fun d =>
    let mid : ℤ × ℤ := (q + 2 * d.1, r + 2 * d.2)
    (knightPerp d).flatMap (fun p => landOk b color (mid.1 + p.1, mid.2 + p.2)))

/-- One sliding ray of `_get_sliding_moves`.  The Python `while` loop walks
at most across the board; `fuel` is called with `2 * size + 1`, enough for
any ray that stays on a board of that size. -/
def slideRay (b : Board) (color : Side) (d : ℤ × ℤ) :
    ℕ → ℤ × ℤ → List (ℤ × ℤ)
  | 0, _ => []
  | fuel + 1, n =>
    if b.hasTile n then
      match pieceAt b n with
      | none => n :: slideRay b color d fuel (n.1 + d.1, n.2 + d.2)
      | some (ec, _) => if ec ≠ color then [n] else []
    else []

/-- Embedding of `MoveGenerator._get_sliding_moves`. -/
def slidingMoves (b : Board) (q r : ℤ) (color : Side)
    (dirs : List (ℤ × ℤ)) : List (ℤ × ℤ) :=
  dirs.flatMap (fun d => slideRay b color d (2 * b.size + 1) (q + d.1, r + d.2))

/-- One colour-class-bounded bishop ray of `_get_bishop_moves`. -/
def bishopRay (b : Board) (color : Side) (tc : ℤ) (d : ℤ × ℤ) :
    ℕ → ℤ × ℤ → List (ℤ × ℤ)
  | 0, _ => []
  | fuel + 1, n =>
    if b.hasTile n then
      if colorClass n ≠ tc then []
      else
        match pieceAt b n with
        | none => n :: bishopRay b color tc d fuel (n.1 + d.1, n.2 + d.2)
        | some (ec, _) => if ec ≠ color then [n] else []
    else []

/-- Embedding of `MoveGenerator._get_bishop_moves`: slides along the six diagonal
directions while the tile colour class matches the source tile's. -/
def bishopMoves (b : Board) (q r : ℤ) (color : Side) : List (ℤ × ℤ) :=
  if b.hasTile (q, r) then
    diagonalDirs.flatMap (fun d =>
      bishopRay b color (colorClass (q, r)) d (2 * b.size + 1) (q + d.1, r + d.2))
  else []

/-- Embedding of `MoveGenerator._get_rook_moves`. -/
def rookMoves (b : Board) (q r : ℤ) (color : Side) : List (ℤ × ℤ) :=
  slidingMoves b q r color orthogonalDirs

/-- Embedding of `MoveGenerator._get_queen_moves`: `list(set(rook + bishop))`.  The
Python set iteration order is unspecified; the embedding removes later
duplicates keeping first occurrences.  No theorem below depends on the
order of this list, only on its members. -/
def queenMoves (b : Board) (q r : ℤ) (color : Side) : List (ℤ × ℤ) :=
  (rookMoves b q r color ++ bishopMoves b q r color).eraseDups

/-- Embedding of `MoveGenerator._get_king_moves`: one step along the six unit
directions, plus one step along the six diagonal directions restricted to
tiles of the king's own colour class. -/
def kingMoves (b : Board) (q r : ℤ) (color : Side) : List (ℤ × ℤ) :=
  if b.hasTile (q, r) then
    let tc := colorClass (q, r)
    orthogonalDirs.flatMap (fun d => landOk b color (q + d.1, r + d.2)) ++
      diagonalDirs.flatMap (fun d =>
        let n : ℤ × ℤ := (q + d.1, r + d.2)
        if b.hasTile n ∧ colorClass n = tc then landOk b color n else [])
  else []

/-- Kind dispatch of `MoveGenerator.get_legal_moves` (pseudo-legal moves). -/
def movesFor (b : Board) (q r : ℤ) (color : Side) : PieceKind → List (ℤ × ℤ)
  | PieceKind.pawn => pawnMoves b q r color
  | PieceKind.knight => knightMoves b q r color
  | PieceKind.bishop => bishopMoves b q r color
  | PieceKind.rook => rookMoves b q r color
  | PieceKind.queen => queenMoves b q r color
  | PieceKind.king => kingMoves b q r color

/-- Embedding of `MoveGenerator.get_legal_moves`: empty when the square is empty or the
piece does not belong to the side to move. -/
def getLegalMoves (b : Board) (p : ℤ × ℤ) : List (ℤ × ℤ) :=
  match pieceAt b p with
  | none => []
  | some (c, k) => if c ≠ b.currentTurn then [] else movesFor b p.1 p.2 c k

/-- Embedding of `MoveGenerator.is_square_attacked`: some piece of `bySide` reaches
`(q, r)`; pawns only attack along their two capture directions. -/
def isSquareAttacked (b : Board) (p : ℤ × ℤ) (bySide : Side) : Bool :=
  (allCoords b.size).any (fun s =>
    match pieceAt b s with
    | none => false
    | some (pc, pk) =>
      if pc ≠ bySide then false
      else
        match pk with
        | PieceKind.pawn =>
          let capDirs : List (ℤ × ℤ) :=
            if pc = Side.white then [(-1, 0), (1, -1)] else [(1, 0), (-1, 1)]
          capDirs.any (fun d => decide ((s.1 + d.1, s.2 + d.2) = p))
        | k => decide (p ∈ movesFor b s.1 s.2 pc k))

/-- Embedding of `MoveValidator.find_king`: first king of the colour in tile order. -/
def findKing (b : Board) (color : Side) : Option (ℤ × ℤ) :=
  (allCoords b.size).find? (fun p => pieceAt b p = some (color, PieceKind.king))

/-- Embedding of `MoveValidator.is_in_check`: `False` when no king is found. -/
def isInCheck (b : Board) (color : Side) : Bool :=
  match findKing b color with
  | none => false
  | some kp => isSquareAttacked b kp (flipSide color)

/-- Embedding of `MoveValidator.simulate_move`: hypothetically transfer the piece,
test check, then revert.  The board is threaded explicitly; the second
component is the board state after the revert. -/
def simulateMove (b : Board) (f t : ℤ × ℤ) : Bool × Board :=
  if ¬ b.hasTile f ∨ ¬ b.hasTile t then (false, b)
  else
    match hmp : pieceAt b f with
    | none => (false, b)
    | some mp =>
      let captured := pieceAt b t
      let b1 := { b with occ := setOcc (setOcc b.occ t (some mp)) f none }
      let inCheck := isInCheck b1 mp.1
      let b2 := { b1 with occ := setOcc (setOcc b1.occ f (some mp)) t captured }
      (!inCheck, b2)

/-- Embedding of `MoveValidator.get_legal_moves_with_check`: filter the pseudo-legal
moves through `simulate_move`, threading the board state. -/
def glwcLoop (src : ℤ × ℤ) : List (ℤ × ℤ) → Board → List (ℤ × ℤ) × Board
  | [], b => ([], b)
  | c :: rest, b =>
    let s := simulateMove b src c
    let acc := glwcLoop src rest s.2
    (if s.1 then c :: acc.1 else acc.1, acc.2)

/-- Embedding of `MoveValidator.get_legal_moves_with_check`, returning the filtered
moves and the board state after all simulations have been reverted. -/
def getLegalMovesWithCheck (b : Board) (p : ℤ × ℤ) : List (ℤ × ℤ) × Board :=
  glwcLoop p (getLegalMoves b p) b

/-- The move list of `get_legal_moves_with_check`. -/
def legalMovesWC (b : Board) (p : ℤ × ℤ) : List (ℤ × ℤ) :=
  (getLegalMovesWithCheck b p).1

/-- Embedding of `MoveValidator.has_any_legal_moves`. -/
def hasAnyLegalMoves (b : Board) (color : Side) : Bool :=
  (allCoords b.size).any (fun p =>
    match pieceAt b p with
    | none => false
    | some (c, _) => c = color ∧ ¬ (legalMovesWC b p).isEmpty)

/-- Embedding of `MoveValidator.is_checkmate`. -/
def isCheckmate (b : Board) (color : Side) : Bool :=
  isInCheck b color && !hasAnyLegalMoves b color

/-- Embedding of `MoveValidator.is_stalemate`. -/
def isStalemate (b : Board) (color : Side) : Bool :=
  !isInCheck b color && !hasAnyLegalMoves b color

/-- Embedding of `MoveValidator.get_game_status` (the identical duplicate
`HexBoard.get_game_status` dispatches the same way). -/
def getGameStatus (b : Board) : String :=
  if isCheckmate b b.currentTurn then "checkmate"
  else if isStalemate b b.currentTurn then "stalemate"
  else if isInCheck b b.currentTurn then "check"
  else "active"

/-- Modelled from the spec: `evaluation.py` imports `HexGeometry` from
`hex_board`, but the snapshot's `hex_board.py` does not define it.  The
spec gives the axial distance formula
`distance(a,b) = (|dq| + |dq+dr| + |dr|) / 2`; distance from the centre
is the distance to the origin. -/
def distanceFromCenter (q r : ℤ) : ℤ := (|q| + |q + r| + |r|) / 2

/-- Modelled from the spec: `HexGeometry.distance_from_edge` is absent
from the source; a coordinate is on-board iff `max(|q|,|r|,|s|) <= N-1`,
so the distance to the board edge is `N-1` minus that maximum (0 on the
edge, `N-1` at the centre, matching the comments in `pawn_pst`). -/
def distanceFromEdge (q r : ℤ) (n : ℕ) : ℤ :=
  ((n : ℤ) - 1) - max |q| (max |r| |q + r|)

/-- Modelled from the spec: `HexGeometry.get_file_centrality` is absent
from the source; files are indexed by `q`, and central files score
higher, so centrality is `N-1 - |q|`. -/
def getFileCentrality (q : ℤ) (n : ℕ) : ℤ := ((n : ℤ) - 1) - |q|

/-- Embedding of `ProceduralPST.pawn_pst`. -/
def pawnPst (q r : ℤ) (isEndgame : Bool) : ℤ :=
  let edgeDist := distanceFromEdge q r BOARD_SIZE
  let fileCentrality := getFileCentrality q BOARD_SIZE
  let advancementBonus : ℤ :=
    if isEndgame then
      edgeDist * 20 + (if edgeDist ≥ 4 then (edgeDist - 3) * 80 else 0)
    else
      edgeDist * 10 + (if edgeDist ≥ 4 then (edgeDist - 3) * 25 else 0)
  let centralityBonus := fileCentrality * 3
  let startingPenalty : ℤ := if edgeDist = 0 then -20 else 0
  startingPenalty + advancementBonus + centralityBonus

/-- Embedding of `ProceduralPST.knight_pst`. -/
def knightPst (q r : ℤ) (isEndgame : Bool) : ℤ :=
  let centerDist := distanceFromCenter q r
  let edgeDist := distanceFromEdge q r BOARD_SIZE
  let centralizationBonus := edgeDist * 15
  let centerPenalty := centerDist * (-8)
  let edgePenalty : ℤ := if edgeDist = 0 then -40 else if edgeDist = 1 then -15 else 0
  let endgamePenalty : ℤ := if isEndgame then -10 else 0
  centralizationBonus + centerPenalty + edgePenalty + endgamePenalty

/-- Embedding of `ProceduralPST.bishop_pst`. -/
def bishopPst (q r : ℤ) (isEndgame : Bool) : ℤ :=
  let centerDist := distanceFromCenter q r
  let edgeDist := distanceFromEdge q r BOARD_SIZE
  let centralizationBonus := (4 - centerDist) * 8
  let edgePenalty : ℤ := if edgeDist = 0 then -20 else 0
  let endgameBonus : ℤ := if isEndgame then 5 else 0
  centralizationBonus + edgePenalty + endgameBonus

/-- Embedding of `ProceduralPST.rook_pst`. -/
def rookPst (q r : ℤ) (isEndgame : Bool) : ℤ :=
  let edgeDist := distanceFromEdge q r BOARD_SIZE
  let fileCentrality := getFileCentrality q BOARD_SIZE
  let base : ℤ := 5
  let advancementBonus : ℤ :=
    if edgeDist ≥ 4 then 35 else if edgeDist ≥ 3 then 20
    else if edgeDist ≥ 2 then 10 else 0
  let centralityBonus := fileCentrality * 2
  if isEndgame then base + Int.fdiv advancementBonus 2 + centralityBonus + 10
  else base + advancementBonus + centralityBonus

/-- Embedding of `ProceduralPST.queen_pst`. -/
def queenPst (q r : ℤ) (isEndgame : Bool) : ℤ :=
  let centerDist := distanceFromCenter q r
  let edgeDist := distanceFromEdge q r BOARD_SIZE
  let centralizationBonus := (4 - centerDist) * 5
  let edgePenalty : ℤ :=
    if ¬ isEndgame then
      if edgeDist = 0 then -20 else if edgeDist = 1 then -10 else 0
    else 0
  let endgameBonus : ℤ := if isEndgame then 10 else 0
  centralizationBonus + edgePenalty + endgameBonus

/-- Embedding of `ProceduralPST.king_pst`. -/
def kingPst (q r : ℤ) (isEndgame : Bool) : ℤ :=
  let centerDist := distanceFromCenter q r
  let edgeDist := distanceFromEdge q r BOARD_SIZE
  if isEndgame then (4 - centerDist) * 10
  else
    let safetyBonus : ℤ :=
      if edgeDist ≤ 1 then 50 else if edgeDist = 2 then 20 else -30
    let centerPenalty := centerDist * (-5)
    safetyBonus + centerPenalty

/-- Kind dispatch of the `piece_funcs` table in `PST.get_pst_value`. -/
def pstFunc : PieceKind → ℤ → ℤ → Bool → ℤ
  | PieceKind.pawn => pawnPst
  | PieceKind.knight => knightPst
  | PieceKind.bishop => bishopPst
  | PieceKind.rook => rookPst
  | PieceKind.queen => queenPst
  | PieceKind.king => kingPst

/-- Embedding of `PST.get_pst_value`: tapered blend of middlegame and endgame values,
`(mg * phase + eg * (MAX_PHASE - phase)) // MAX_PHASE` with Python floor
division. -/
def getPstValue (kind : PieceKind) (q r : ℤ) (phase : ℤ) : ℤ :=
  let mg := pstFunc kind q r false
  let eg := pstFunc kind q r true
  Int.fdiv (mg * phase + eg * (26 - phase)) 26

/-- Embedding of `Evaluator.calculate_phase`: accumulate `PHASE_VALUES` over all
occupied tiles, then clamp with `min(phase, MAX_PHASE)`. -/
def calculatePhase (b : Board) : ℤ :=
  min ((allCoords b.size).foldl
    (fun acc p =>
      match pieceAt b p with
      | some (_, k) => acc + PHASE_VALUES k
      | none => acc) 0) MAX_PHASE

/-- Embedding of `Evaluator.evaluate`: returns `(score, total_material, phase)`;
positive score favours white, kings are excluded from total material. -/
def evaluate (b : Board) : ℤ × ℤ × ℤ :=
  let phase := calculatePhase b
  let acc := (allCoords b.size).foldl
    (fun (acc : ℤ × ℤ) p =>
      match pieceAt b p with
      | some (c, k) =>
        let materialValue := PIECE_VALUES k
        let totalMat :=
          if k ≠ PieceKind.king then acc.2 + materialValue else acc.2
        let pieceValue := materialValue + getPstValue k p.1 p.2 phase
        (if c = Side.white then acc.1 + pieceValue else acc.1 - pieceValue, totalMat)
      | none => acc) (0, 0)
  (acc.1, acc.2, phase)

/-- A move as the engine represents it: `((from_q, from_r), (to_q, to_r))`. -/
abbrev Mv := (ℤ × ℤ) × (ℤ × ℤ)

/-- Embedding of `ChessEngine.__init__`: the engine plays white iff the board is
flipped (`getattr(board, "flipped", False)`), otherwise black. -/
def engineColor (b : Board) : Side :=
  if b.flipped then Side.white else Side.black

/-- Embedding of `ChessEngine._evaluate_engine_position`: the raw white-positive score,
negated when the engine plays black. -/
def evalEngine (b : Board) : Score :=
  if engineColor b = Side.white then Score.fin (evaluate b).1
  else Score.fin (-(evaluate b).1)

/-- The `move_score` key of `ChessEngine._order_moves`: MVV-LVA for
captures, minus the destination's distance-to-centre term
`abs(to_q) + abs(to_r) + abs(-to_q - to_r)`. -/
def moveScore (b : Board) (current : Side) (m : Mv) : ℤ :=
  let base : ℤ :=
    match pieceAt b m.2 with
    | some (vc, vk) =>
      if vc ≠ current then
        match pieceAt b m.1 with
        | some (_, ak) => PIECE_VALUES vk * 10 - PIECE_VALUES ak
        | none => 0
      else 0
    | none => 0
  base - (|m.2.1| + |m.2.2| + |(-m.2.1 - m.2.2)|)

/-- Stable descending insertion: place `x` before the first element of
strictly smaller key, after all elements of greater-or-equal key. -/
def insertDesc (key : Mv → ℤ) (x : Mv) : List Mv → List Mv
  | [] => [x]
  | y :: ys => if key y < key x then x :: y :: ys else y :: insertDesc key x ys

/-- Stable descending sort by `key`: elements in nonincreasing key order,
ties kept in original order. -/
def sortDesc (key : Mv → ℤ) (l : List Mv) : List Mv :=
  l.foldl (fun acc x => insertDesc key x acc) []

/-- Embedding of `ChessEngine._order_moves`: `sorted(moves, key=move_score,
reverse=True)`.  Python's `sorted` is stable, so its result is the unique
stable descending reordering, which `sortDesc` computes. -/
def orderMoves (b : Board) (current : Side) (moves : List Mv) : List Mv :=
  sortDesc (moveScore b current) moves

/-- The move enumeration shared by `_minimax` and `find_best_move`: for
every tile in insertion order holding a piece of `side`, all its
check-filtered legal moves. -/
def allLegalMovesFor (b : Board) (side : Side) : List Mv :=
  (allCoords b.size).flatMap (fun p =>
    match pieceAt b p with
    | some (c, _) =>
      if c = side then (legalMovesWC b p).map (fun t => (p, t)) else []
    | none => [])

/-- The snapshot/apply/auto-promote step shared by `_minimax` and
`find_best_move`: apply `move_piece`, then, if a promotion is pending,
promote to queen, clear the pending record and set the turn to the
opposite of the snapshotted (pre-move) turn.  The snapshot/restore pair
of the source is embedded by recursing on this new value and keeping the
original board. -/
def engineApply (b : Board) (m : Mv) : Board :=
  let b1 := (movePiece b m.1 m.2).2
  match b1.pendingPromotion with
  | some (pq, pr, pcolor) =>
    let b2 :=
      if b1.hasTile (pq, pr) then
        { b1 with occ := setOcc b1.occ (pq, pr) (some (pcolor, PieceKind.queen)) }
      else b1
    { b2 with
      pendingPromotion := none
      currentTurn := if b.currentTurn = Side.black then Side.white else Side.black }
  | none => b1

/-- The terminal no-legal-moves value of `_minimax` (lines 119-126):
the oriented evaluation, replaced by `float('-inf') + depth`
(maximising) or `float('inf') - depth` (minimising) when the side to
move is in check.  In IEEE-754 arithmetic these are exactly `-inf` and
`+inf` for every finite `depth`. -/
def noMoveScore (b : Board) (depth : ℕ) (isMax : Bool) : Score :=
  if isInCheck b b.currentTurn then
    if isMax then Score.fadd Score.ninf (depth : ℤ)
    else Score.fsub Score.pinf (depth : ℤ)
  else evalEngine b

/-- The maximising loop of `_minimax` (lines 130-152): fold over the
ordered moves keeping `max_eval` and `alpha`, breaking when
`beta <= alpha`. -/
def abMaxLoop (nextf : Board → Score → Score) (b : Board) (β : Score) :
    List Mv → Score → Score → Score
  | [], me, _ => me
  | m :: rest, me, α =>
    let g := nextf (engineApply b m) α
    let me' := max me g
    let α' := max α g
    if β ≤ α' then me' else abMaxLoop nextf b β rest me' α'

/-- The minimising loop of `_minimax` (lines 154-175). -/
def abMinLoop (nextf : Board → Score → Score) (b : Board) (α : Score) :
    List Mv → Score → Score → Score
  | [], me, _ => me
  | m :: rest, me, β =>
    let g := nextf (engineApply b m) β
    let me' := min me g
    let β' := min β g
    if β' ≤ α then me' else abMinLoop nextf b α rest me' β'

/-- Embedding of `ChessEngine._minimax`: alpha-beta minimax to the given remaining
depth, with the engine-oriented evaluation at depth 0 and the
checkmate/stalemate scoring at childless nodes. -/
def minimaxAB : ℕ → Board → Bool → Score → Score → Score
  | 0, b, _, _, _ => evalEngine b
  | d + 1, b, isMax, α, β =>
    let moves := allLegalMovesFor b b.currentTurn
    if moves.isEmpty then noMoveScore b (d + 1) isMax
    else
      let ordered := orderMoves b b.currentTurn moves
      if isMax then
        abMaxLoop (fun b' α' => minimaxAB d b' false α' β) b β ordered Score.ninf α
      else
        abMinLoop (fun b' β' => minimaxAB d b' true α β') b α ordered Score.pinf β

/-- The maximising loop of the unpruned reference minimax: plain fold of
`max` over all ordered moves, no window, no cutoff. -/
def fullMaxLoop (nextf : Board → Score) (b : Board) : List Mv → Score → Score
  | [], me => me
  | m :: rest, me => fullMaxLoop nextf b rest (max me (nextf (engineApply b m)))

/-- The minimising loop of the unpruned reference minimax. -/
def fullMinLoop (nextf : Board → Score) (b : Board) : List Mv → Score → Score
  | [], me => me
  | m :: rest, me => fullMinLoop nextf b rest (min me (nextf (engineApply b m)))

/-- Modelled from the spec: the unpruned full minimax over the same game
tree — same legal-move enumeration, same move ordering, same terminal
scoring — but with no alpha-beta window and no cutoffs.  This is the
reference point of the alpha-beta equivalence property. -/
def minimaxFull : ℕ → Board → Bool → Score
  | 0, b, _ => evalEngine b
  | d + 1, b, isMax =>
    let moves := allLegalMovesFor b b.currentTurn
    if moves.isEmpty then noMoveScore b (d + 1) isMax
    else
      let ordered := orderMoves b b.currentTurn moves
      if isMax then fullMaxLoop (fun b' => minimaxFull d b' false) b ordered Score.ninf
      else fullMinLoop (fun b' => minimaxFull d b' true) b ordered Score.pinf

/-- The engine's legal root moves (`find_best_move` lines 184-194):
moves of the `engine_color` pieces, before ordering. -/
def rootMovesRaw (b : Board) : List Mv := allLegalMovesFor b (engineColor b)

/-- The root loop of `find_best_move`: search every ordered root move
with a fresh full window and keep the first strict improvement over the
running best value (initially `float('-inf')`). -/
def findBestMoveLoop (b : Board) (d : ℕ) :
    List Mv → Option (Mv × Score) → Score → Option (Mv × Score)
  | [], best, _ => best
  | m :: rest, best, bestVal =>
    let v := minimaxAB (d - 1) (engineApply b m) false Score.ninf Score.pinf
    if bestVal < v then findBestMoveLoop b d rest (some (m, v)) v
    else findBestMoveLoop b d rest best bestVal

/-- Embedding of `ChessEngine.find_best_move` with the configured search depth as an
explicit argument. -/
def findBestMove (b : Board) (searchDepth : ℕ) : Option (Mv × Score) :=
  findBestMoveLoop b searchDepth
    (orderMoves b (engineColor b) (rootMovesRaw b)) none Score.ninf

/-- The root loop of the unpruned reference search. -/
def findBestMoveFullLoop (b : Board) (d : ℕ) :
    List Mv → Option (Mv × Score) → Score → Option (Mv × Score)
  | [], best, _ => best
  | m :: rest, best, bestVal =>
    let v := minimaxFull (d - 1) (engineApply b m) false
    if bestVal < v then findBestMoveFullLoop b d rest (some (m, v)) v
    else findBestMoveFullLoop b d rest best bestVal

/-- Modelled from the spec: `find_best_move` recomputed with the unpruned
full minimax — identical enumeration, ordering and first-found
tie-break. -/
def findBestMoveFull (b : Board) (searchDepth : ℕ) : Option (Mv × Score) :=
  findBestMoveFullLoop b searchDepth
    (orderMoves b (engineColor b) (rootMovesRaw b)) none Score.ninf

/-- A board with the given occupants and side to move: the state reached
by `place_piece` calls on a freshly constructed `HexBoard`. -/
def mkBoard (size : ℕ) (pieces : List ((ℤ × ℤ) × Piece)) (turn : Side) :
    Board :=
  { size := size, occ := fun p => pieces.lookup p, currentTurn := turn,
    enPassantTarget := none, pendingPromotion := none,
    capturedWhite := [], capturedBlack := [], flipped := false }

/-- A size-2 position with black (the engine side) to move.  Black's only
legal move is king takes queen, after which the white rook mates, so
every root line of a depth-3 search is a forced loss for the engine. -/
def bC2 : Board :=
  mkBoard 2
    [((-1, 0), (Side.black, PieceKind.king)),
     ((-1, 1), (Side.white, PieceKind.queen)),
     ((0, -1), (Side.white, PieceKind.rook)),
     ((1, 0), (Side.white, PieceKind.pawn))] Side.black

/-- The position reached from `bC2` after the forced king-takes-queen and
the rook's mating reply: black, to move, is checkmated. -/
def bMate : Board :=
  mkBoard 2
    [((-1, 1), (Side.black, PieceKind.king)),
     ((0, 0), (Side.white, PieceKind.rook)),
     ((1, 0), (Side.white, PieceKind.pawn))] Side.black

/-- A size-6 board with a single white pawn one forward step away from
the white promotion zone (black's back-rank corner `(0, -5)`). -/
def bProm : Board :=
  mkBoard 6 [((0, -4), (Side.white, PieceKind.pawn))] Side.white

/-- An empty size-2 board. -/
def bEmpty : Board := mkBoard 2 [] Side.white

/-- The forward `r`-step of a pawn of the given side: white pawns move
toward negative `r`, black pawns toward positive `r`. -/
def pawnForwardStep (c : Side) : ℤ := if c = Side.white then -1 else 1

/-- The fixed starting-square set of the side's pawns. -/
def pawnStartSquares (c : Side) : List (ℤ × ℤ) :=
  if c = Side.white then whitePawnStarts else blackPawnStarts

/-- The two oblique-forward capture squares of a pawn of side `c` at
`(q, r)`. -/
def pawnCaptureSquares (c : Side) (q r : ℤ) : List (ℤ × ℤ) :=
  if c = Side.white then [(q - 1, r), (q + 1, r - 1)]
  else [(q + 1, r), (q - 1, r + 1)]

theorem Score.ninf_le (v : Score) : Score.ninf ≤ v := by cases v <;> rfl

theorem Score.le_pinf (v : Score) : v ≤ Score.pinf := by cases v <;> rfl

theorem Score.ninf_lt_pinf : Score.ninf < Score.pinf := by decide

theorem flipSide_ne (s : Side) : flipSide s ≠ s := by cases s <;> decide

theorem ne_side_iff {s c : Side} : s ≠ c ↔ s = flipSide c := by
  cases s <;> cases c <;> simp [flipSide]

/-- Embedding of `simulate_move` restores the board it mutated: the threaded board
state after the revert equals the input state. -/
theorem simulateMove_snd (b : Board) (f t : ℤ × ℤ) :
    (simulateMove b f t).2 = b := by
  unfold simulateMove
  split
  · rfl
  next hguard =>
    push_neg at hguard
    split
    · rfl
    next mp hmp =>
      simp only
      have hf : b.occ f = some mp := by
        have := hmp
        rw [pieceAt, if_pos hguard.1] at this
        exact this
      have ht : pieceAt b t = b.occ t := by rw [pieceAt, if_pos hguard.2]
      have hocc : setOcc (setOcc (setOcc (setOcc b.occ t (some mp)) f none) f
          (some mp)) t (pieceAt b t) = b.occ := by
        funext p
        by_cases hpt : p = t
        · subst hpt; simp [setOcc, ht]
        · by_cases hpf : p = f
          · subst hpf; simp [setOcc, hpt, hf]
          · simp [setOcc, hpt, hpf]
      exact Board.ext rfl hocc rfl rfl rfl rfl rfl rfl

theorem glwcLoop_snd (src : ℤ × ℤ) (l : List (ℤ × ℤ)) (b : Board) :
    (glwcLoop src l b).2 = b := by
  induction l generalizing b with
  | nil => rfl
  | cons c rest ih => simp only [glwcLoop]; rw [ih, simulateMove_snd]

/-- C8: `get_legal_moves_with_check` leaves the board unchanged — every
candidate move is hypothetically applied and then fully reverted, so the
board state threaded through all the simulations equals the input
board (every tile occupant, the side to move, and all other fields). -/
theorem claim_C8 (b : Board) (p : ℤ × ℤ) :
    (getLegalMovesWithCheck b p).2 = b :=
  glwcLoop_snd p (getLegalMoves b p) b

theorem phase_foldl (b : Board) (l : List (ℤ × ℤ)) (acc : ℤ) :
    (l.foldl (fun acc p =>
        match pieceAt b p with
        | some (_, k) => acc + PHASE_VALUES k
        | none => acc) acc)
      = acc + (l.map fun p =>
        match pieceAt b p with
        | some (_, k) => PHASE_VALUES k
        | none => 0).sum := by
  induction l generalizing acc with
  | nil => simp
  | cons p rest ih =>
    rcases hp : pieceAt b p with _ | ⟨c, k⟩ <;>
      simp [hp, ih, add_assoc]

/-- C9: `calculate_phase` is the sum over all pieces on the board of the
per-kind phase weights (pawn and king 0, knight and bishop 1, rook 2,
queen 4), clamped above at `MAX_PHASE = 26`. -/
theorem claim_C9 (b : Board) :
    calculatePhase b =
      min ((allCoords b.size).map (fun p =>
        match pieceAt b p with
        | none => 0
        | some (_, PieceKind.pawn) => 0
        | some (_, PieceKind.king) => 0
        | some (_, PieceKind.knight) => 1
        | some (_, PieceKind.bishop) => 1
        | some (_, PieceKind.rook) => 2
        | some (_, PieceKind.queen) => (4 : ℤ))).sum 26 := by
  unfold calculatePhase MAX_PHASE
  rw [phase_foldl, zero_add]
  congr 1
  refine congrArg List.sum (List.map_congr_left fun p _ => ?_)
  rcases hp : pieceAt b p with _ | ⟨c, k⟩
  · simp only [hp]
  · simp only [hp]; cases k <;> rfl

/-- C10: if no king of the given side stands on any tile, `is_in_check`
reports `False`, never an error. -/
theorem claim_C10 (b : Board) (side : Side)
    (h : ((allCoords b.size).all fun p =>
        decide (pieceAt b p ≠ some (side, PieceKind.king))) = true) :
    isInCheck b side = false := by
  have hfk : findKing b side = none := by
    unfold findKing
    rw [List.find?_eq_none]
    intro p hp
    have hne := of_decide_eq_true (List.all_eq_true.mp h p hp)
    simp [hne]
  rw [isInCheck, hfk]

theorem claim_C10_witness :
    (((allCoords bEmpty.size).all fun p =>
        decide (pieceAt bEmpty p ≠ some (Side.black, PieceKind.king))) = true) ∧
      isInCheck bEmpty Side.black = false :=
  ⟨by decide, claim_C10 bEmpty Side.black (by decide)⟩

/-- C5: `move_piece` returns `False` and leaves the whole board state
unchanged when the source has no tile, the destination has no tile, the
source is empty, source equals destination, or the mover's side is not
the side to move. -/
theorem claim_C5 (b : Board) (f t : ℤ × ℤ)
    (h : ¬ b.hasTile f ∨ ¬ b.hasTile t ∨ pieceAt b f = none ∨ f = t ∨
      ∃ k, pieceAt b f = some (flipSide b.currentTurn, k)) :
    movePiece b f t = (false, b) := by
  by_cases hg : ¬ b.hasTile f ∨ ¬ b.hasTile t
  · simp [movePiece, hg]
  · rcases h with h | h | h | h | ⟨k, h⟩
    · exact absurd (Or.inl h) hg
    · exact absurd (Or.inr h) hg
    · simp [movePiece, hg, h]
    · subst h
      rcases hp : pieceAt b f with _ | pc <;> simp [movePiece, hg, hp]
    · have hside : (flipSide b.currentTurn, k).1 ≠ b.currentTurn := flipSide_ne _
      by_cases hft : f = t
      · subst hft
        simp [movePiece, hg, h]
      · simp [movePiece, hg, h, hft, hside]

theorem claim_C5_witness :
    pieceAt bEmpty (0, 0) = none ∧
      movePiece bEmpty (0, 0) (0, 1) = (false, bEmpty) :=
  ⟨by decide,
    claim_C5 bEmpty (0, 0) (0, 1) (Or.inr (Or.inr (Or.inl (by decide))))⟩

/-- C6: `game_status` is `'checkmate'` iff the side to move is in check
with no legal move anywhere, `'stalemate'` iff not in check with no
legal move, `'check'` iff in check with at least one legal move, and
`'active'` otherwise. -/
theorem claim_C6 (b : Board) :
    (getGameStatus b = "checkmate" ↔
      isInCheck b b.currentTurn = true ∧
        hasAnyLegalMoves b b.currentTurn = false) ∧
    (getGameStatus b = "stalemate" ↔
      isInCheck b b.currentTurn = false ∧
        hasAnyLegalMoves b b.currentTurn = false) ∧
    (getGameStatus b = "check" ↔
      isInCheck b b.currentTurn = true ∧
        hasAnyLegalMoves b b.currentTurn = true) ∧
    (getGameStatus b = "active" ↔
      isInCheck b b.currentTurn = false ∧
        hasAnyLegalMoves b b.currentTurn = true) := by
  cases h1 : isInCheck b b.currentTurn <;>
    cases h2 : hasAnyLegalMoves b b.currentTurn <;>
      simp [getGameStatus, isCheckmate, isStalemate, h1, h2]

theorem pawnCap_mem (b : Board) (c : Side) (n dd : ℤ × ℤ) :
    (dd ∈ (match pieceAt b n with
      | some (ec, _) => if ec ≠ c then [n] else []
      | none => ([] : List (ℤ × ℤ)))) ↔
      (dd = n ∧ ∃ k, pieceAt b n = some (flipSide c, k)) := by
  rcases hp : pieceAt b n with _ | ⟨ec, k⟩
  · simp
  · by_cases hec : ec = c
    · subst hec
      have hne : ∀ k' : PieceKind, ¬ ((ec, k) = (flipSide ec, k')) := by
        intro k' hk
        exact flipSide_ne ec (congrArg Prod.fst hk).symm
      simp [hne]
    · have hec' : ec = flipSide c := ne_side_iff.mp hec
      subst hec'
      simp [hec]

/-- C7: the pawn move generator returns exactly the one-step forward
destination when that tile exists and is empty, additionally the
two-step destination from the side's fixed starting squares when both
forward tiles exist and are empty, and the side's two oblique-forward
capture squares when they hold an enemy piece — and nothing else. -/
theorem claim_C7 (b : Board) (q r : ℤ) (c : Side) (d : ℤ × ℤ) :
    d ∈ pawnMoves b q r c ↔
      (d = (q, r + pawnForwardStep c) ∧ b.hasTile d ∧ pieceAt b d = none) ∨
      (d = (q, r + 2 * pawnForwardStep c) ∧ (q, r) ∈ pawnStartSquares c ∧
        b.hasTile (q, r + pawnForwardStep c) ∧
        pieceAt b (q, r + pawnForwardStep c) = none ∧
        b.hasTile d ∧ pieceAt b d = none) ∨
      (d ∈ pawnCaptureSquares c q r ∧
        ∃ k, pieceAt b d = some (flipSide c, k)) := by
  have memIte : ∀ (A B : Prop) (iA : Decidable A) (iB : Decidable B)
      (n1 n2 : ℤ × ℤ),
      (d ∈ (if A then (if B then [n1, n2] else [n1]) else ([] : List (ℤ × ℤ)))) ↔
        (A ∧ d = n1) ∨ (A ∧ B ∧ d = n2) := by
    intro A B iA iB n1 n2
    by_cases hA : A <;> by_cases hB : B <;> simp [hA, hB]
  have orSubst : ∀ (P : ℤ × ℤ → Prop) (u v : ℤ × ℤ),
      ((d = u ∧ P u) ∨ (d = v ∧ P v)) ↔ ((d = u ∨ d = v) ∧ P d) := by
    intro P u v
    constructor
    · rintro (⟨rfl, h⟩ | ⟨rfl, h⟩)
      · exact ⟨Or.inl rfl, h⟩
      · exact ⟨Or.inr rfl, h⟩
    · rintro ⟨rfl | rfl, h⟩
      · exact Or.inl ⟨rfl, h⟩
      · exact Or.inr ⟨rfl, h⟩
  have fwd1 : ∀ n : ℤ × ℤ,
      ((b.hasTile n ∧ pieceAt b n = none) ∧ d = n) ↔
        (d = n ∧ b.hasTile d ∧ pieceAt b d = none) := by
    intro n
    constructor
    · rintro ⟨⟨h, e⟩, rfl⟩; exact ⟨rfl, h, e⟩
    · rintro ⟨rfl, h, e⟩; exact ⟨⟨h, e⟩, rfl⟩
  have fwd2 : ∀ (S : Prop) (n1 n : ℤ × ℤ),
      ((b.hasTile n1 ∧ pieceAt b n1 = none) ∧
          (S ∧ b.hasTile n ∧ pieceAt b n = none) ∧ d = n) ↔
        (d = n ∧ S ∧ b.hasTile n1 ∧ pieceAt b n1 = none ∧
          b.hasTile d ∧ pieceAt b d = none) := by
    intro S n1 n
    constructor
    · rintro ⟨⟨h1, e1⟩, ⟨hs, hn, en⟩, rfl⟩; exact ⟨rfl, hs, h1, e1, hn, en⟩
    · rintro ⟨rfl, hs, h1, e1, hn, en⟩; exact ⟨⟨h1, e1⟩, ⟨hs, hn, en⟩, rfl⟩
  cases c
  case white =>
    have e1 : ((q + (0 : ℤ), r + (-1 : ℤ)) : ℤ × ℤ) = (q, r + -1) := by
      rw [Prod.mk.injEq]; exact ⟨by ring, rfl⟩
    have e2 : ((q + (0 : ℤ) * 2, r + (-1 : ℤ) * 2) : ℤ × ℤ) = (q, r + 2 * -1) := by
      rw [Prod.mk.injEq]; exact ⟨by ring, by ring⟩
    have e3 : ((q + (-1 : ℤ), r + (0 : ℤ)) : ℤ × ℤ) = (q - 1, r) := by
      rw [Prod.mk.injEq]; exact ⟨by ring, by ring⟩
    have e4 : ((q + (1 : ℤ), r + (-1 : ℤ)) : ℤ × ℤ) = (q + 1, r - 1) := by
      rw [Prod.mk.injEq]; exact ⟨rfl, by ring⟩
    simp only [pawnMoves, pawnForwardStep, pawnStartSquares, pawnCaptureSquares,
      List.mem_append, List.mem_flatMap, List.mem_cons, List.not_mem_nil,
      reduceIte, pawnCap_mem, decide_eq_true_eq, or_false, exists_eq_or_imp,
      exists_eq_left]
    rw [e1, e2, e3, e4, memIte, fwd1, fwd2,
      orSubst (fun x => ∃ k, pieceAt b x = some (flipSide Side.white, k))
        (q - 1, r) (q + 1, r - 1),
      or_assoc]
  case black =>
    have e1 : ((q + (0 : ℤ), r + (1 : ℤ)) : ℤ × ℤ) = (q, r + 1) := by
      rw [Prod.mk.injEq]; exact ⟨by ring, rfl⟩
    have e2 : ((q + (0 : ℤ) * 2, r + (1 : ℤ) * 2) : ℤ × ℤ) = (q, r + 2 * 1) := by
      rw [Prod.mk.injEq]; exact ⟨by ring, by ring⟩
    have e3 : ((q + (1 : ℤ), r + (0 : ℤ)) : ℤ × ℤ) = (q + 1, r) := by
      rw [Prod.mk.injEq]; exact ⟨rfl, by ring⟩
    have e4 : ((q + (-1 : ℤ), r + (1 : ℤ)) : ℤ × ℤ) = (q - 1, r + 1) := by
      rw [Prod.mk.injEq]; exact ⟨by ring, rfl⟩
    simp only [pawnMoves, pawnForwardStep, pawnStartSquares, pawnCaptureSquares,
      List.mem_append, List.mem_flatMap, List.mem_cons, List.not_mem_nil,
      show (Side.black = Side.white) = False from by simp, if_false,
      reduceIte, pawnCap_mem, decide_eq_true_eq, or_false, exists_eq_or_imp,
      exists_eq_left]
    rw [e1, e2, e3, e4, memIte, fwd1, fwd2,
      orSubst (fun x => ∃ k, pieceAt b x = some (flipSide Side.black, k))
        (q + 1, r) (q - 1, r + 1),
      or_assoc]

theorem le_fullMaxLoop (nF : Board → Score) (b : Board) :
    ∀ (L : List Mv) (me : Score), me ≤ fullMaxLoop nF b L me := by
  intro L
  induction L with
  | nil => intro me; simp [fullMaxLoop]
  | cons m rest ih =>
    intro me
    simp only [fullMaxLoop]
    exact le_trans (le_max_left _ _) (ih _)

theorem fullMinLoop_le (nF : Board → Score) (b : Board) :
    ∀ (L : List Mv) (me : Score), fullMinLoop nF b L me ≤ me := by
  intro L
  induction L with
  | nil => intro me; simp [fullMinLoop]
  | cons m rest ih =>
    intro me
    simp only [fullMinLoop]
    exact le_trans (ih _) (min_le_left _ _)

theorem fullMaxLoop_mono (nF : Board → Score) (b : Board) :
    ∀ (L : List Mv) {x y : Score}, x ≤ y →
      fullMaxLoop nF b L x ≤ fullMaxLoop nF b L y := by
  intro L
  induction L with
  | nil => intro x y h; simpa [fullMaxLoop] using h
  | cons m rest ih =>
    intro x y h
    simp only [fullMaxLoop]
    exact ih (max_le_max h le_rfl)

theorem fullMinLoop_mono (nF : Board → Score) (b : Board) :
    ∀ (L : List Mv) {x y : Score}, x ≤ y →
      fullMinLoop nF b L x ≤ fullMinLoop nF b L y := by
  intro L
  induction L with
  | nil => intro x y h; simpa [fullMinLoop] using h
  | cons m rest ih =>
    intro x y h
    simp only [fullMinLoop]
    exact ih (min_le_min h le_rfl)

theorem fullMaxLoop_init_max (nF : Board → Score) (b : Board) :
    ∀ (L : List Mv) (x y : Score),
      fullMaxLoop nF b L (max x y) = max (fullMaxLoop nF b L x) y := by
  intro L
  induction L with
  | nil => intro x y; simp [fullMaxLoop]
  | cons m rest ih =>
    intro x y
    simp only [fullMaxLoop]
    rw [max_assoc, max_comm y (nF (engineApply b m)), ← max_assoc, ih]

theorem fullMinLoop_init_min (nF : Board → Score) (b : Board) :
    ∀ (L : List Mv) (x y : Score),
      fullMinLoop nF b L (min x y) = min (fullMinLoop nF b L x) y := by
  intro L
  induction L with
  | nil => intro x y; simp [fullMinLoop]
  | cons m rest ih =>
    intro x y
    simp only [fullMinLoop]
    rw [min_right_comm x y (nF (engineApply b m)), ih]

theorem le_abMaxLoop (nf : Board → Score → Score) (b : Board) (β : Score) :
    ∀ (L : List Mv) (me α : Score), me ≤ abMaxLoop nf b β L me α := by
  intro L
  induction L with
  | nil => intro me α; simp [abMaxLoop]
  | cons m rest ih =>
    intro me α
    simp only [abMaxLoop]
    by_cases hbr : β ≤ max α (nf (engineApply b m) α)
    · rw [if_pos hbr]; exact le_max_left _ _
    · rw [if_neg hbr]; exact le_trans (le_max_left _ _) (ih _ _)

theorem abMinLoop_le (nf : Board → Score → Score) (b : Board) (α : Score) :
    ∀ (L : List Mv) (me β : Score), abMinLoop nf b α L me β ≤ me := by
  intro L
  induction L with
  | nil => intro me β; simp [abMinLoop]
  | cons m rest ih =>
    intro me β
    simp only [abMinLoop]
    by_cases hbr : min β (nf (engineApply b m) β) ≤ α
    · rw [if_pos hbr]; exact min_le_left _ _
    · rw [if_neg hbr]; exact le_trans (ih _ _) (min_le_left _ _)

/-- Fail-soft upper bound for the maximising alpha-beta loop: the pruned
result never exceeds `max` of the unpruned fold and the entry `alpha`. -/
theorem abMaxLoop_le (nf : Board → Score → Score) (nF : Board → Score)
    (b : Board) (β : Score)
    (hU : ∀ (b' : Board) (a : Score), a < β → nf b' a ≤ max (nF b') a) :
    ∀ (L : List Mv) (me α : Score), α < β →
      abMaxLoop nf b β L me α ≤ max (fullMaxLoop nF b L me) α := by
  intro L
  induction L with
  | nil =>
    intro me α _
    simp only [abMaxLoop, fullMaxLoop]
    exact le_max_left _ _
  | cons m rest ih =>
    intro me α hαβ
    simp only [abMaxLoop, fullMaxLoop]
    have hg : nf (engineApply b m) α ≤ max (nF (engineApply b m)) α := hU _ _ hαβ
    set g := nf (engineApply b m) α with hgdef
    set F := nF (engineApply b m) with hFdef
    have hmeF : max me g ≤ max (max me F) α :=
      le_trans (max_le_max le_rfl hg) (le_of_eq (max_assoc me F α).symm)
    by_cases hbr : β ≤ max α g
    · rw [if_pos hbr]
      exact le_trans hmeF (max_le_max (le_fullMaxLoop nF b rest _) le_rfl)
    · rw [if_neg hbr]
      refine le_trans (ih (max me g) (max α g) (not_le.mp hbr)) ?_
      have h1 : fullMaxLoop nF b rest (max me g) ≤
          max (fullMaxLoop nF b rest (max me F)) α :=
        le_trans (fullMaxLoop_mono nF b rest hmeF)
          (le_of_eq (fullMaxLoop_init_max nF b rest (max me F) α))
      have h2 : max α g ≤ max (fullMaxLoop nF b rest (max me F)) α := by
        have hF : F ≤ fullMaxLoop nF b rest (max me F) :=
          le_trans (le_max_right me F) (le_fullMaxLoop nF b rest _)
        have : max α g ≤ max F α :=
          max_le (le_max_right F α) (le_trans hg (max_le_max le_rfl le_rfl))
        exact le_trans this (max_le_max hF le_rfl)
      exact max_le h1 h2

/-- Fail-soft lower bound for the maximising alpha-beta loop. -/
theorem min_le_abMaxLoop (nf : Board → Score → Score) (nF : Board → Score)
    (b : Board) (β : Score)
    (hL : ∀ (b' : Board) (a : Score), a < β → min (nF b') β ≤ nf b' a) :
    ∀ (L : List Mv) (me α : Score), α < β →
      min (fullMaxLoop nF b L me) β ≤ abMaxLoop nf b β L me α := by
  intro L
  induction L with
  | nil =>
    intro me α _
    simp only [abMaxLoop, fullMaxLoop]
    exact min_le_left _ _
  | cons m rest ih =>
    intro me α hαβ
    simp only [abMaxLoop, fullMaxLoop]
    set g := nf (engineApply b m) α with hgdef
    set F := nF (engineApply b m) with hFdef
    have hgl : min F β ≤ g := hL _ _ hαβ
    by_cases hbr : β ≤ max α g
    · rw [if_pos hbr]
      have hβg : β ≤ g := by
        rcases le_max_iff.mp hbr with h | h
        · exact absurd h (not_le.mpr hαβ)
        · exact h
      exact le_trans (min_le_right _ _) (le_trans hβg (le_max_right me g))
    · rw [if_neg hbr]
      refine le_trans ?_ (ih (max me g) (max α g) (not_le.mp hbr))
      rcases le_total F β with hFβ | hβF
      · have hFg : F ≤ g := by rwa [min_eq_left hFβ] at hgl
        exact min_le_min (fullMaxLoop_mono nF b rest (max_le_max le_rfl hFg)) le_rfl
      · have hβg : β ≤ g := by rwa [min_eq_right hβF] at hgl
        have hB : β ≤ fullMaxLoop nF b rest (max me g) :=
          le_trans hβg (le_trans (le_max_right me g) (le_fullMaxLoop nF b rest _))
        rw [min_eq_right hB]
        exact min_le_right _ _

/-- Fail-soft lower bound for the minimising alpha-beta loop (order dual
of `abMaxLoop_le`). -/
theorem min_le_abMinLoop (nf : Board → Score → Score) (nF : Board → Score)
    (b : Board) (α : Score)
    (hL : ∀ (b' : Board) (bb : Score), α < bb → min (nF b') bb ≤ nf b' bb) :
    ∀ (L : List Mv) (me β : Score), α < β →
      min (fullMinLoop nF b L me) β ≤ abMinLoop nf b α L me β := by
  intro L
  induction L with
  | nil =>
    intro me β _
    simp only [abMinLoop, fullMinLoop]
    exact min_le_left _ _
  | cons m rest ih =>
    intro me β hαβ
    simp only [abMinLoop, fullMinLoop]
    have hg : min (nF (engineApply b m)) β ≤ nf (engineApply b m) β := hL _ _ hαβ
    set g := nf (engineApply b m) β with hgdef
    set F := nF (engineApply b m) with hFdef
    have hmeF : min (min me F) β ≤ min me g :=
      le_trans (le_of_eq (min_assoc me F β)) (min_le_min le_rfl hg)
    by_cases hbr : min β g ≤ α
    · rw [if_pos hbr]
      exact le_trans (min_le_min (fullMinLoop_le nF b rest _) le_rfl) hmeF
    · rw [if_neg hbr]
      refine le_trans ?_ (ih (min me g) (min β g) (not_le.mp hbr))
      have h1 : min (fullMinLoop nF b rest (min me F)) β ≤
          fullMinLoop nF b rest (min me g) :=
        le_trans (le_of_eq (fullMinLoop_init_min nF b rest (min me F) β).symm)
          (fullMinLoop_mono nF b rest hmeF)
      have h2 : min (fullMinLoop nF b rest (min me F)) β ≤ min β g := by
        have hF : fullMinLoop nF b rest (min me F) ≤ F :=
          le_trans (fullMinLoop_le nF b rest _) (min_le_right me F)
        have : min F β ≤ min β g :=
          le_min (min_le_right F β) hg
        exact le_trans (min_le_min hF le_rfl) this
      exact le_min h1 h2

/-- Fail-soft upper bound for the minimising alpha-beta loop (order dual
of `min_le_abMaxLoop`). -/
theorem abMinLoop_le_max (nf : Board → Score → Score) (nF : Board → Score)
    (b : Board) (α : Score)
    (hU : ∀ (b' : Board) (bb : Score), α < bb → nf b' bb ≤ max (nF b') α) :
    ∀ (L : List Mv) (me β : Score), α < β →
      abMinLoop nf b α L me β ≤ max (fullMinLoop nF b L me) α := by
  intro L
  induction L with
  | nil =>
    intro me β _
    simp only [abMinLoop, fullMinLoop]
    exact le_max_left _ _
  | cons m rest ih =>
    intro me β hαβ
    simp only [abMinLoop, fullMinLoop]
    set g := nf (engineApply b m) β with hgdef
    set F := nF (engineApply b m) with hFdef
    have hgu : g ≤ max F α := hU _ _ hαβ
    by_cases hbr : min β g ≤ α
    · rw [if_pos hbr]
      have hgα : g ≤ α := by
        rcases min_le_iff.mp hbr with h | h
        · exact absurd h (not_le.mpr hαβ)
        · exact h
      exact le_trans (le_trans (min_le_right me g) hgα) (le_max_right _ _)
    · rw [if_neg hbr]
      refine le_trans (ih (min me g) (min β g) (not_le.mp hbr)) ?_
      rcases le_total g F with hgF | hFg
      · exact max_le_max (fullMinLoop_mono nF b rest (min_le_min le_rfl hgF)) le_rfl
      · rcases le_total α F with hαF | hFα
        · have hgF : g ≤ F := by rwa [max_eq_left hαF] at hgu
          exact max_le_max
            (fullMinLoop_mono nF b rest (min_le_min le_rfl hgF)) le_rfl
        · have hgα : g ≤ α := by rwa [max_eq_right hFα] at hgu
          have hB : fullMinLoop nF b rest (min me g) ≤ α :=
            le_trans (le_trans (fullMinLoop_le nF b rest _) (min_le_right me g))
              hgα
          rw [max_eq_right hB]
          exact le_max_right _ _

/-- Fail-soft alpha-beta bound: for any window `alpha < beta`, the pruned
search value lies between `min` of the true minimax value and `beta`, and
`max` of the true value and `alpha`. -/
theorem minimax_bounds :
    ∀ (d : ℕ) (b : Board) (isMax : Bool) (α β : Score), α < β →
      min (minimaxFull d b isMax) β ≤ minimaxAB d b isMax α β ∧
        minimaxAB d b isMax α β ≤ max (minimaxFull d b isMax) α := by
  intro d
  induction d with
  | zero =>
    intro b isMax α β _
    simp only [minimaxAB, minimaxFull]
    exact ⟨min_le_left _ _, le_max_left _ _⟩
  | succ d ih =>
    intro b isMax α β hαβ
    simp only [minimaxAB, minimaxFull]
    by_cases hemp : (allLegalMovesFor b b.currentTurn).isEmpty
    · rw [if_pos hemp, if_pos hemp]
      exact ⟨min_le_left _ _, le_max_left _ _⟩
    · rw [if_neg hemp, if_neg hemp]
      cases isMax
      · rw [if_neg Bool.false_ne_true, if_neg Bool.false_ne_true]
        constructor
        · exact min_le_abMinLoop _ _ b α
            (fun b' bb h => (ih b' true α bb h).1) _ _ _ hαβ
        · exact abMinLoop_le_max _ _ b α
            (fun b' bb h => (ih b' true α bb h).2) _ _ _ hαβ
      · rw [if_pos rfl, if_pos rfl]
        constructor
        · exact min_le_abMaxLoop _ _ b β
            (fun b' a h => (ih b' false a β h).1) _ _ _ hαβ
        · exact abMaxLoop_le _ _ b β
            (fun b' a h => (ih b' false a β h).2) _ _ _ hαβ

/-- With the full window, alpha-beta computes exactly the unpruned
minimax value. -/
theorem minimaxAB_eq_full (d : ℕ) (b : Board) (isMax : Bool) :
    minimaxAB d b isMax Score.ninf Score.pinf = minimaxFull d b isMax := by
  obtain ⟨h1, h2⟩ :=
    minimax_bounds d b isMax Score.ninf Score.pinf Score.ninf_lt_pinf
  rw [min_eq_left (Score.le_pinf _)] at h1
  rw [max_eq_left (Score.ninf_le _)] at h2
  exact le_antisymm h2 h1

theorem findBestMoveLoop_eq (b : Board) (d : ℕ) :
    ∀ (L : List Mv) (best : Option (Mv × Score)) (bv : Score),
      findBestMoveLoop b d L best bv = findBestMoveFullLoop b d L best bv := by
  intro L
  induction L with
  | nil => intro best bv; rfl
  | cons m rest ih =>
    intro best bv
    simp only [findBestMoveLoop, findBestMoveFullLoop, minimaxAB_eq_full]
    split
    · exact ih _ _
    · exact ih _ _

/-- C1: for every board position and every search depth, `find_best_move`
returns exactly the move and value of the unpruned full minimax over the
same game tree (same legal-move enumeration, same move ordering, same
first-found tie-break, no alpha-beta cutoffs). -/
theorem claim_C1 (b : Board) (searchDepth : ℕ) :
    findBestMove b searchDepth = findBestMoveFull b searchDepth := by
  unfold findBestMove findBestMoveFull
  exact findBestMoveLoop_eq b searchDepth _ _ _

theorem fbmLoop_some_ne_none (b : Board) (d : ℕ) :
    ∀ (L : List Mv) (r : Mv × Score) (bv : Score),
      findBestMoveLoop b d L (some r) bv ≠ none := by
  intro L
  induction L with
  | nil => intro r bv h; exact Option.noConfusion h
  | cons m rest ih =>
    intro r bv
    simp only [findBestMoveLoop]
    split
    · exact ih _ _
    · exact ih _ _

theorem fbmLoop_none_iff (b : Board) (d : ℕ) :
    ∀ L : List Mv,
      findBestMoveLoop b d L none Score.ninf = none ↔
        L.all (fun m => decide (minimaxAB (d - 1) (engineApply b m) false
          Score.ninf Score.pinf = Score.ninf)) = true := by
  intro L
  induction L with
  | nil => simp [findBestMoveLoop]
  | cons m rest ih =>
    simp only [findBestMoveLoop, List.all_cons, Bool.and_eq_true,
      decide_eq_true_eq]
    by_cases h : Score.ninf <
        minimaxAB (d - 1) (engineApply b m) false Score.ninf Score.pinf
    · rw [if_pos h]
      constructor
      · intro hn; exact absurd hn (fbmLoop_some_ne_none b d rest _ _)
      · rintro ⟨hv, _⟩; rw [hv] at h; exact absurd h (lt_irrefl _)
    · rw [if_neg h]
      have hv : minimaxAB (d - 1) (engineApply b m) false Score.ninf
          Score.pinf = Score.ninf :=
        le_antisymm (not_lt.mp h) (Score.ninf_le _)
      rw [ih]
      simp [hv]

theorem fbmLoop_mem (b : Board) (d : ℕ) :
    ∀ (L : List Mv) (best : Option (Mv × Score)) (bv : Score)
      (r : Mv × Score),
      findBestMoveLoop b d L best bv = some r →
        best = some r ∨
          (r.1 ∈ L ∧ r.2 = minimaxAB (d - 1) (engineApply b r.1) false
            Score.ninf Score.pinf) := by
  intro L
  induction L with
  | nil => intro best bv r h; exact Or.inl h
  | cons m rest ih =>
    intro best bv r h
    simp only [findBestMoveLoop] at h
    by_cases hc : bv <
        minimaxAB (d - 1) (engineApply b m) false Score.ninf Score.pinf
    · rw [if_pos hc] at h
      rcases ih _ _ _ h with h1 | h1
      · injection h1 with h1
        subst h1
        exact Or.inr ⟨List.mem_cons_self m rest, rfl⟩
      · exact Or.inr ⟨List.mem_cons_of_mem _ h1.1, h1.2⟩
    · rw [if_neg hc] at h
      rcases ih _ _ _ h with h1 | h1
      · exact Or.inl h1
      · exact Or.inr ⟨List.mem_cons_of_mem _ h1.1, h1.2⟩

theorem insertDesc_perm (key : Mv → ℤ) (x : Mv) :
    ∀ l : List Mv, (insertDesc key x l).Perm (x :: l) := by
  intro l
  induction l with
  | nil => exact List.Perm.refl _
  | cons y ys ih =>
    simp only [insertDesc]
    by_cases h : key y < key x
    · rw [if_pos h]
    · rw [if_neg h]
      exact (List.Perm.cons y ih).trans (List.Perm.swap x y ys)

theorem sortDesc_foldl_perm (key : Mv → ℤ) :
    ∀ (l acc : List Mv),
      (l.foldl (fun acc x => insertDesc key x acc) acc).Perm (l ++ acc) := by
  intro l
  induction l with
  | nil => intro acc; simp
  | cons x xs ih =>
    intro acc
    simp only [List.foldl_cons, List.cons_append]
    exact ((ih _).trans
      (List.Perm.append_left xs (insertDesc_perm key x acc))).trans
      List.perm_middle

theorem orderMoves_perm (b : Board) (c : Side) (l : List Mv) :
    (orderMoves b c l).Perm l := by
  have h := sortDesc_foldl_perm (moveScore b c) l []
  simpa [orderMoves, sortDesc] using h

/-- C2 (amended): `find_best_move` returns nothing exactly when the
engine side has no legal root move or every root move's searched value is
`-inf` (a forced loss within the search horizon); when it returns a
result, the move is one of the engine's legal root moves paired with its
searched value. -/
theorem claim_C2_amended (b : Board) (d : ℕ) :
    (findBestMove b d = none ↔
      rootMovesRaw b = [] ∨
        (rootMovesRaw b).all (fun m =>
          decide (minimaxAB (d - 1) (engineApply b m) false Score.ninf
            Score.pinf = Score.ninf)) = true) ∧
    (findBestMove b d).elim True (fun r =>
      r.1 ∈ rootMovesRaw b ∧
        r.2 = minimaxAB (d - 1) (engineApply b r.1) false Score.ninf
          Score.pinf) := by
  have hperm := orderMoves_perm b (engineColor b) (rootMovesRaw b)
  constructor
  · rw [findBestMove, fbmLoop_none_iff]
    constructor
    · intro h
      right
      rw [List.all_eq_true] at h ⊢
      intro m hm
      exact h m (hperm.mem_iff.mpr hm)
    · intro h
      rw [List.all_eq_true]
      rcases h with h | h
      · intro m hm
        have hmraw := hperm.mem_iff.mp hm
        rw [h] at hmraw
        exact absurd hmraw (List.not_mem_nil m)
      · rw [List.all_eq_true] at h
        intro m hm
        exact h m (hperm.mem_iff.mp hm)
  · cases hr : findBestMove b d with
    | none => exact trivial
    | some r =>
      rw [findBestMove] at hr
      rcases fbmLoop_mem b d _ _ _ _ hr with h | h
      · exact Option.noConfusion h
      · exact ⟨hperm.mem_iff.mp h.1, h.2⟩

/-- C2 counterexample: in `bC2` the engine side has a legal root move
(the forced king-takes-queen), yet a depth-3 `find_best_move` returns
nothing, because every root line is a forced mate against the engine and
`float('-inf') > float('-inf')` never holds. -/
theorem claim_C2_counterexample :
    rootMovesRaw bC2 ≠ [] ∧ findBestMove bC2 3 = none := by
  refine ⟨by decide, by decide⟩

/-- C3: in the checkmated position `bMate` the minimax mate score is the
same `-inf` at remaining depth 1 and at remaining depth 2 — the code's
`float('-inf') + depth` equals `float('-inf')` for every depth, so a
shallower mate does not score more extreme than a deeper one. -/
theorem claim_C3_bug :
    getGameStatus bMate = "checkmate" ∧
      minimaxAB 1 bMate true Score.ninf Score.pinf =
        minimaxAB 2 bMate true Score.ninf Score.pinf ∧
      minimaxAB 1 bMate true Score.ninf Score.pinf = Score.ninf := by
  refine ⟨by decide, by decide, by decide⟩

/-- C4: `move_piece` applied to a white pawn stepping onto the promotion
square `(0, -5)` succeeds, toggles the turn to black and leaves
`pending_promotion` unset — the promotion branch the callers rely on is
absent from `move_piece`. -/
theorem claim_C4_bug :
    (movePiece bProm (0, -4) (0, -5)).1 = true ∧
      ((movePiece bProm (0, -4) (0, -5)).2).currentTurn = Side.black ∧
      ((movePiece bProm (0, -4) (0, -5)).2).pendingPromotion = none := by
  refine ⟨by decide, by decide, by decide⟩
